import Mathlib

/-!
# Verification of the Congressional Twitter Network repository

Two components are embedded here:

* the Viral Centrality Engine (`computeViralCentrality`): the iterative
  fixed-point solver for per-node spread estimates.  The repository ships
  only the call site (`compute_vc.py`); the function `viral_centrality`
  itself lives in `viral_centrality.py`, which is not part of the source
  tree, so the engine is modelled from the specification (§3, §4.1, §7).
  Real numbers are modelled by `ℚ`; floating-point values at the
  validation boundary are modelled by `RawWeight`, which can also be a
  non-finite value (`nan`, `posInf`, `negInf`).
* the Graph Builder (`graph_maker.py`): edge-key generation, edge weight
  accumulation, per-tweet interaction processing, normalization by
  per-source tweet count and pruning of under-active source nodes.
-/

namespace CongressTwitter

/-! ## Data model of the Viral Centrality Engine (modelled from the spec) -/

/-- Modelled from the spec: a weight as supplied to the Engine.  The Engine
receives floating-point weights which may be non-finite; validation must
reject `nan` and infinities, so the raw value space keeps them. -/
inductive RawWeight where
  | finite (val : ℚ)
  | nan
  | posInf
  | negInf
deriving DecidableEq, Repr

/-- Modelled from the spec (§3): per node, the in-adjacency consists of the
ordered list of in-neighbors and the parallel list of weights; the
out-neighbors are accepted for symmetry but unused by the update rule. -/
structure RawNode where
  inNeighbors : List ℕ
  inWeights : List RawWeight
  outNeighbors : List ℕ
deriving DecidableEq, Repr

/-- Modelled from the spec (§3): the graph is dense-indexed, node `i`'s
adjacency is the `i`-th entry of the node list. -/
structure RawGraph where
  nodes : List RawNode
deriving DecidableEq, Repr

/-- Number of nodes `N`; node ids must lie in `[0, N)`. -/
def RawGraph.N (g : RawGraph) : ℕ := g.nodes.length

/-- Modelled from the spec (§7): the error taxonomy of input validation.
Each constructor identifies the offending node (and, through the
constructor itself, the offending field). -/
inductive InvalidGraphInput where
  | lengthMismatch (node : ℕ)
  | outOfRangeId (node : ℕ) (id : ℕ)
  | negativeWeight (node : ℕ)
  | nonFiniteWeight (node : ℕ)
deriving DecidableEq, Repr

/-- A raw weight is finite when it carries a rational value. -/
def RawWeight.isFiniteW : RawWeight → Bool
  | .finite _ => true
  | _ => false

/-- A raw weight is negative when it is finite and below zero. -/
def RawWeight.isNegativeW : RawWeight → Bool
  | .finite q => decide (q < 0)
  | _ => false

/-- The rational value of a finite raw weight (0 for non-finite ones,
which validation has already ruled out whenever this is used). -/
def RawWeight.toRat : RawWeight → ℚ
  | .finite q => q
  | _ => 0

/-- Modelled from the spec (§4.1, §7): validation of one node's adjacency.
Checks, in order: the in-neighbor/in-weight length agreement, that every
referenced id is `< N`, that every weight is finite, and that every weight
is non-negative. -/
def checkNode (N : ℕ) (i : ℕ) (nd : RawNode) : Except InvalidGraphInput Unit :=
  if nd.inNeighbors.length ≠ nd.inWeights.length then
    .error (.lengthMismatch i)
  else
    match nd.inNeighbors.find? (fun j => N ≤ j) with
    | some j => .error (.outOfRangeId i j)
    | none =>
      if nd.inWeights.any (fun w => ¬ w.isFiniteW) then
        .error (.nonFiniteWeight i)
      else if nd.inWeights.any (fun w => w.isNegativeW) then
        .error (.negativeWeight i)
      else
        .ok ()

/-- Modelled from the spec (§4.1): validation of the whole input, node by
node, before any iteration begins; the first violation is reported. -/
def validateInput (g : RawGraph) : Except InvalidGraphInput Unit :=
  go g.N 0 g.nodes
where
  go (N : ℕ) : ℕ → List RawNode → Except InvalidGraphInput Unit
    | _, [] => .ok ()
    | i, nd :: rest =>
      match checkNode N i nd with
      | .error e => .error e
      | .ok _ => go N (i + 1) rest

/-- The validated adjacency the iteration works on: in-neighbor ids and
rational in-weights, per node. -/
structure Graph where
  inN : List (List ℕ)
  inW : List (List ℚ)
deriving DecidableEq, Repr

/-- Extraction of the validated adjacency from the raw input. -/
def toGraph (g : RawGraph) : Graph :=
  { inN := g.nodes.map (fun nd => nd.inNeighbors)
    inW := g.nodes.map (fun nd => nd.inWeights.map RawWeight.toRat) }

/-! ## The iteration (modelled from the spec §4.1, steps 1–6) -/

/-- Modelled from the spec (§4.1 step 2): the update value of one node — a
multiply-accumulate over its in-adjacency, contributing `w * (1 + prior[j])`
for each in-neighbor `j` with edge weight `w`. -/
def updateNode (inNbrs : List ℕ) (inWts : List ℚ) (prior : List ℚ) : ℚ :=
  (inNbrs.zip inWts).foldl (fun acc jw => acc + jw.2 * (1 + prior.getD jw.1 0)) 0

/-- Modelled from the spec (§4.1 step 2): one synchronous (Jacobi-style)
sweep producing the full new vector from the prior vector. -/
def sweep (G : Graph) (prior : List ℚ) : List ℚ :=
  (List.range G.inN.length).map (fun i => updateNode (G.inN.getD i []) (G.inW.getD i []) prior)

/-- The `n`-th iterate of the sweep, starting from the all-zero vector
(§4.1 step 1). -/
def vcSteps (G : Graph) : ℕ → List ℚ
  | 0 => List.replicate G.inN.length 0
  | n + 1 => sweep G (vcSteps G n)

/-- Modelled from the spec (§4.1 step 3): the maximum absolute per-node
change between two vectors. -/
def maxAbsDiff (v w : List ℚ) : ℚ :=
  ((v.zip w).map (fun p => |p.1 - p.2|)).foldl max 0

/-- The convergence measure after sweep `n + 1`: the maximum absolute
change between iterate `n + 1` and iterate `n`. -/
def deltaAt (G : Graph) (n : ℕ) : ℚ := maxAbsDiff (vcSteps G (n + 1)) (vcSteps G n)

/-- Modelled from the spec (§4.1 steps 2–5): the iteration loop.  `cur` is
the current vector, `count` the number of sweeps already performed, `fuel`
the number of sweeps still allowed by `maxIterations`.  After each sweep
the loop stops when the change is at most `tol`; exhausting `fuel` is the
`maxIterations` cap.  Returns the final vector and the sweep count. -/
def engineLoop (G : Graph) (tol : ℚ) : List ℚ → ℕ → ℕ → List ℚ × ℕ
  | cur, count, 0 => (cur, count)
  | cur, count, fuel + 1 =>
    let next := sweep G cur
    if maxAbsDiff next cur ≤ tol then (next, count + 1)
    else engineLoop G tol next (count + 1) fuel

/-- Modelled from the spec (§4.1): the Engine with a non-negative
`maxIterations` cap: validate, then iterate from the all-zero vector,
allowing at most `maxIterations` sweeps. -/
def computeViralCentrality (g : RawGraph) (maxIterations : ℕ) (tolerance : ℚ) :
    Except InvalidGraphInput (List ℚ) :=
  match validateInput g with
  | .error e => .error e
  | .ok _ => .ok (engineLoop (toGraph g) tolerance (vcSteps (toGraph g) 0) 0 maxIterations).1

/-- Modelled from the spec (§4.1): the Engine with the uncapped sentinel
`maxIterations = -1`: validate, then iterate until the first sweep whose
change is at most `tolerance`.  Convergence (`h`) must hold for the
computation to be defined at all — with the sentinel there is no hard cap
(§4.1 Termination guarantee). -/
def computeViralCentralityUncapped (g : RawGraph) (tolerance : ℚ)
    (h : ∃ k, deltaAt (toGraph g) k ≤ tolerance) :
    Except InvalidGraphInput (List ℚ) :=
  match validateInput g with
  | .error e => .error e
  | .ok _ => .ok (vcSteps (toGraph g) (Nat.find h + 1))

/-! ## Validity of the raw input, stated independently of the checker -/

/-- A raw weight is valid when it is finite and non-negative. -/
def RawWeight.IsValidWeight : RawWeight → Prop
  | .finite q => 0 ≤ q
  | .nan => False
  | .posInf => False
  | .negInf => False

instance (w : RawWeight) : Decidable w.IsValidWeight :=
  match w with
  | .finite q => inferInstanceAs (Decidable (0 ≤ q))
  | .nan => isFalse fun h => h
  | .posInf => isFalse fun h => h
  | .negInf => isFalse fun h => h

/-- One node's adjacency is well-formed: parallel lengths, ids in range,
valid weights (§3 invariants, §4.1 preconditions). -/
def NodeOk (N : ℕ) (nd : RawNode) : Prop :=
  nd.inNeighbors.length = nd.inWeights.length ∧
  (∀ j ∈ nd.inNeighbors, j < N) ∧
  (∀ w ∈ nd.inWeights, w.IsValidWeight)

instance (N : ℕ) (nd : RawNode) : Decidable (NodeOk N nd) :=
  inferInstanceAs (Decidable (_ ∧ _ ∧ _))

/-- The whole raw input is well-formed (§4.1 preconditions). -/
def ValidInput (g : RawGraph) : Prop := ∀ nd ∈ g.nodes, NodeOk g.N nd

instance (g : RawGraph) : Decidable (ValidInput g) :=
  inferInstanceAs (Decidable (∀ nd ∈ g.nodes, NodeOk g.N nd))

/-- The reported error is accurate: the node it names really violates the
constraint its constructor names (§7: enough context to diagnose). -/
def ErrorAccurate (g : RawGraph) : InvalidGraphInput → Prop
  | .lengthMismatch i => ∃ nd, g.nodes.get? i = some nd ∧
      nd.inNeighbors.length ≠ nd.inWeights.length
  | .outOfRangeId i j => ∃ nd, g.nodes.get? i = some nd ∧
      j ∈ nd.inNeighbors ∧ g.N ≤ j
  | .negativeWeight i => ∃ nd, g.nodes.get? i = some nd ∧
      ∃ q, RawWeight.finite q ∈ nd.inWeights ∧ q < 0
  | .nonFiniteWeight i => ∃ nd, g.nodes.get? i = some nd ∧
      ∃ w ∈ nd.inWeights, w.isFiniteW = false

/-! ## Graph Builder (embedded from `src/graph_maker.py`) -/

/-- An edge of the `nx.MultiDiGraph`: endpoints, the multigraph edge key
(a string, as produced by `generate_edge_key`) and the weight (an integer
count while the graph is being built, a rational after normalization). -/
structure Edge where
  src : ℕ
  dst : ℕ
  key : String
  weight : ℚ
deriving DecidableEq, Repr

/-- The `nx.MultiDiGraph`: its node set and its keyed edge list. -/
structure MGraph where
  nodes : List ℕ
  edges : List Edge
deriving DecidableEq, Repr

/-- The empty multigraph `nx.MultiDiGraph()`. -/
def MGraph.empty : MGraph := { nodes := [], edges := [] }

/-- `generate_edge_key`: the unique key `"src->dest"` identifying an edge
of the multigraph. -/
def generate_edge_key (src_user_id dest_user_id : ℕ) : String :=
  toString src_user_id ++ "->" ++ toString dest_user_id

/-- `graph.get_edge_data(u, v, key)`: the edge with these endpoints and
this key, when present. -/
def MGraph.get_edge_data (g : MGraph) (u v : ℕ) (k : String) : Option Edge :=
  g.edges.find? (fun e => e.src = u ∧ e.dst = v ∧ e.key = k)

/-- `graph.add_edge(u, v, key=key, weight=1)`: adds the endpoints as nodes
when absent and appends the new edge. -/
def MGraph.add_edge (g : MGraph) (u v : ℕ) (k : String) : MGraph :=
  let ns1 := if u ∈ g.nodes then g.nodes else g.nodes ++ [u]
  let ns2 := if v ∈ ns1 then ns1 else ns1 ++ [v]
  { nodes := ns2
    edges := g.edges ++ [{ src := u, dst := v, key := k, weight := 1 }] }

/-- `add_or_update_edge_in_graph`: when the endpoints differ and both are
in-network, add the edge `src->dest` with weight 1 if absent, otherwise
add 1 to its weight. -/
def add_or_update_edge_in_graph (g : MGraph) (src_user_id dest_user_id : ℕ)
    (user_ids : List ℕ) : MGraph :=
  if src_user_id ≠ dest_user_id ∧ src_user_id ∈ user_ids ∧ dest_user_id ∈ user_ids then
    match g.get_edge_data src_user_id dest_user_id
        (generate_edge_key src_user_id dest_user_id) with
    | none => g.add_edge src_user_id dest_user_id (generate_edge_key src_user_id dest_user_id)
    | some _ =>
      { g with edges := g.edges.map (fun e =>
          if e.src = src_user_id ∧ e.dst = dest_user_id ∧
              e.key = generate_edge_key src_user_id dest_user_id then
            { e with weight := e.weight + 1 }
          else e) }
  else g

/-- One tweet row, with the fields `process_potential_edges` reads.  The
author-id fields are parsed with `ast.literal_eval` inside `try/except
ValueError`; `none` models a parse failure (caught and skipped), `some`
models a successfully parsed id list.  Ids are modelled as the numbers the
code obtains via `int(user_id_str)`; the Python string membership test on
canonical decimal id strings coincides with numeric equality. -/
structure Tweet where
  replied_to_author_ids : Option (List ℕ)
  retweeted_author_ids : Option (List ℕ)
  quoted_author_ids : Option (List ℕ)
  mentioned_user_ids : List ℕ
deriving DecidableEq, Repr

/-- `process_potential_edges`: replies, then retweets and quotes (one
`try` block: both must parse for either to count), then mentions — a
mention is skipped when its id was already collected from the reply,
retweet or quote fields of this same tweet.  Every interaction of user
`B` found in a tweet of `curr_user_id = A` is credited to the edge
`B->A`. -/
def process_potential_edges (curr_user_id : ℕ) (user_ids : List ℕ)
    (tweet_ser : Tweet) (graph : MGraph) : MGraph :=
  let step := fun (g : MGraph) (b : ℕ) => add_or_update_edge_in_graph g b curr_user_id user_ids
  -- account for reply edges
  let repliedPart : MGraph × List ℕ :=
    match tweet_ser.replied_to_author_ids with
    | some ids => (ids.foldl step graph, ids)
    | none => (graph, [])
  -- account for retweet, quote edges (a single try block: a parse failure
  -- in either field skips both)
  let rtqPart : MGraph × List ℕ :=
    match tweet_ser.retweeted_author_ids, tweet_ser.quoted_author_ids with
    | some rts, some qts => ((rts ++ qts).foldl step repliedPart.1, repliedPart.2 ++ (rts ++ qts))
    | _, _ => repliedPart
  -- account for mention edges, skipping ids already counted above
  tweet_ser.mentioned_user_ids.foldl
    (fun g b => if b ∉ rtqPart.2 then step g b else g) rtqPart.1

/-- Whether a source node survives `normalize_graph_edge_weights`: it must
appear in `num_tweets_per_user_dict` with at least `min_number_tweets`
tweets. -/
def sourceKept (num_tweets_per_user : List (ℕ × ℕ)) (min_number_tweets : ℕ) (u : ℕ) : Bool :=
  match (num_tweets_per_user.find? (fun p => p.1 = u)).map (fun p => p.2) with
  | some c => min_number_tweets ≤ c
  | none => false

/-- `normalize_graph_edge_weights`: each edge whose source has enough
tweets gets its weight divided by the source's total tweet count; the
other edges are collected for removal together with their source nodes,
then the edges are removed and the nodes are removed (removing a node
removes every edge incident to it, as `graph.remove_node` does).  Source
and destination of an edge are recovered from its key, which by
construction is `generate_edge_key src dst`, so they equal the stored
endpoints. -/
def normalize_graph_edge_weights (graph : MGraph)
    (num_tweets_per_user : List (ℕ × ℕ)) (min_number_tweets : ℕ) : MGraph :=
  let node_to_remove : List ℕ :=
    (graph.edges.filter (fun e => ¬ sourceKept num_tweets_per_user min_number_tweets e.src)).map
      (fun e => e.src)
  let normalized : List Edge :=
    graph.edges.filterMap (fun e =>
      match (num_tweets_per_user.find? (fun p => p.1 = e.src)).map (fun p => p.2) with
      | some c =>
        if min_number_tweets ≤ c then some { e with weight := e.weight / (c : ℚ) }
        else none
      | none => none)
  { nodes := graph.nodes.filter (fun u => u ∉ node_to_remove)
    edges := normalized.filter (fun e => e.src ∉ node_to_remove ∧ e.dst ∉ node_to_remove) }

/-- The per-user tweet data `make_graph` reads from the CSV directory:
each user id paired with the list of that user's tweets (the number of
rows of the user's dataframe is the user's tweet count). -/
abbrev UserTweets : Type := List (ℕ × List Tweet)

/-- The in-network user ids, one per CSV file. -/
def userIdsOf (ut : UserTweets) : List ℕ := ut.map (fun p => p.1)

/-- `num_tweets_per_user_dict`: each user id mapped to the number of
tweets they made. -/
def numTweetsOf (ut : UserTweets) : List (ℕ × ℕ) := ut.map (fun p => (p.1, p.2.length))

/-- The edge-accumulation phase of `make_graph`: every tweet of every user
is processed against the empty multigraph. -/
def build_edges (ut : UserTweets) : MGraph :=
  ut.foldl (fun g p => p.2.foldl
    (fun g2 t => process_potential_edges p.1 (userIdsOf ut) t g2) g) MGraph.empty

/-- `make_graph` (its pure core, abstracted over the already-read CSV
data): accumulate the interaction edges, then normalize and prune. -/
def make_graph (ut : UserTweets) (min_number_tweets : ℕ) : MGraph :=
  normalize_graph_edge_weights (build_edges ut) (numTweetsOf ut) min_number_tweets

/-! ## Interaction counting (for the multiplicity analysis of the builder) -/

/-- The `replied_retweeted_quoted_user_ids` list accumulated by
`process_potential_edges`: the ids collected from the reply field (when it
parses) followed by the ids collected from the retweet and quote fields
(when both parse). -/
def replied_retweeted_quoted_ids (t : Tweet) : List ℕ :=
  (match t.replied_to_author_ids with
   | some ids => ids
   | none => []) ++
  (match t.retweeted_author_ids, t.quoted_author_ids with
   | some rts, some qts => rts ++ qts
   | _, _ => [])

/-- The ordered pairs `(src, dest)` that one tweet submits to
`add_or_update_edge_in_graph`: replies, then retweets and quotes, then
mentions not already collected. -/
def tweet_interactions (curr_user_id : ℕ) (t : Tweet) : List (ℕ × ℕ) :=
  ((match t.replied_to_author_ids with
    | some ids => ids
    | none => []) ++
   (match t.retweeted_author_ids, t.quoted_author_ids with
    | some rts, some qts => rts ++ qts
    | _, _ => []) ++
   (t.mentioned_user_ids.filter (fun b => b ∉ replied_retweeted_quoted_ids t))).map
    (fun b => (b, curr_user_id))

/-- The interaction pairs submitted by one user's tweets, in order. -/
def user_interactions (u : ℕ) : List Tweet → List (ℕ × ℕ)
  | [] => []
  | t :: ts => tweet_interactions u t ++ user_interactions u ts

/-- The interaction pairs submitted by the whole tweet directory. -/
def all_interactions : UserTweets → List (ℕ × ℕ)
  | [] => []
  | p :: rest => user_interactions p.1 p.2 ++ all_interactions rest

/-- Whether a submitted pair passes the guard of
`add_or_update_edge_in_graph` and is therefore counted: distinct endpoints,
both in-network. -/
def countedPair (user_ids : List ℕ) (p : ℕ × ℕ) : Bool :=
  decide (p.1 ≠ p.2) && decide (p.1 ∈ user_ids) && decide (p.2 ∈ user_ids)

/-- The number of counted interactions for the directed pair `(u, v)`. -/
def interaction_count (ut : UserTweets) (u v : ℕ) : ℕ :=
  (all_interactions ut).countP (fun p => decide (p = (u, v)) && countedPair (userIdsOf ut) p)

/-- The total weight carried by the edges from `u` to `v` (0 when there is
no such edge; the single edge's weight once at most one such edge exists). -/
def edgeWeightTotal (g : MGraph) (u v : ℕ) : ℚ :=
  ((g.edges.filter (fun e => decide (e.src = u ∧ e.dst = v))).map (fun e => e.weight)).sum

/-- At most one edge per ordered pair of endpoints: no two distinct
entries of the edge list share source and destination. -/
def PairUniq (g : MGraph) : Prop :=
  g.edges.Pairwise (fun e1 e2 => ¬ (e1.src = e2.src ∧ e1.dst = e2.dst))

/-- Every edge carries the deterministic key generated from its
endpoints. -/
def KeyCanon (g : MGraph) : Prop :=
  ∀ e ∈ g.edges, e.key = generate_edge_key e.src e.dst

/-- Every edge weight is at least 1 (pre-normalization). -/
def WPos (g : MGraph) : Prop := ∀ e ∈ g.edges, 1 ≤ e.weight

/-! ## Concrete example data used by the witnesses -/

/-- The spec's 2-node scenario (§8): node 0 has no in-neighbors, node 1
has the single in-neighbor 0 with weight 1. -/
def exampleGraphTwo : RawGraph :=
  { nodes := [ { inNeighbors := [], inWeights := [], outNeighbors := [1] },
               { inNeighbors := [0], inWeights := [.finite 1], outNeighbors := [] } ] }

/-- The spec's malformed-input scenario (§8): `inNeighbors = [[0]]`,
`inWeights = [[1.0, 2.0]]` — a per-node length mismatch. -/
def exampleGraphBad : RawGraph :=
  { nodes := [ { inNeighbors := [0], inWeights := [.finite 1, .finite 2], outNeighbors := [] } ] }

/-- A graph with no edges at all on 2 nodes. -/
def exampleGraphIsolated : RawGraph :=
  { nodes := [ { inNeighbors := [], inWeights := [], outNeighbors := [] },
               { inNeighbors := [], inWeights := [], outNeighbors := [] } ] }

/-- A tweet by user 0 replying to user 1. -/
def tweetReply1 : Tweet :=
  { replied_to_author_ids := some [1]
    retweeted_author_ids := some []
    quoted_author_ids := some []
    mentioned_user_ids := [] }

/-- A tweet mentioning user 0. -/
def tweetMention0 : Tweet :=
  { replied_to_author_ids := none
    retweeted_author_ids := some []
    quoted_author_ids := some []
    mentioned_user_ids := [0] }

/-- A tweet replying to user 1 and mentioning users 1 and 2: the mention
of 1 must not be double counted. -/
def tweetReplyAndMention : Tweet :=
  { replied_to_author_ids := some [1]
    retweeted_author_ids := some []
    quoted_author_ids := some []
    mentioned_user_ids := [1, 2] }

/-- A tweet replying to user 1 whose retweet and quote fields fail to
parse, mentioning users 1 and 2: the mention of 1 is still skipped,
because the replied-to ids were collected before the failing block. -/
def tweetReplyBadParse : Tweet :=
  { replied_to_author_ids := some [1]
    retweeted_author_ids := none
    quoted_author_ids := none
    mentioned_user_ids := [1, 2] }

/-- A tiny tweet directory: user 0 replies to user 1 and tweets twice,
user 1 mentions user 0 in a single tweet. -/
def exampleUserTweets : UserTweets :=
  [ (0, [tweetReply1, { replied_to_author_ids := none
                        retweeted_author_ids := none
                        quoted_author_ids := none
                        mentioned_user_ids := [] }])
  , (1, [tweetMention0]) ]

/-! ## Engine lemmas -/

theorem foldl_add_map_sum {α : Type} (f : α → ℚ) (a : ℚ) (l : List α) :
    l.foldl (fun acc x => acc + f x) a = a + (l.map f).sum := by
  induction l generalizing a with
  | nil => simp
  | cons x xs ih => simp [ih, add_assoc]

theorem vcSteps_length (G : Graph) (n : ℕ) : (vcSteps G n).length = G.inN.length := by
  cases n <;> simp [vcSteps, sweep]

theorem sweep_getD (G : Graph) (v : List ℚ) (i : ℕ) (h : i < G.inN.length) :
    (sweep G v).getD i 0 = updateNode (G.inN.getD i []) (G.inW.getD i []) v := by
  simp [sweep, List.getD_eq_getElem?_getD, List.getElem?_map, List.getElem?_range, h]

theorem updateNode_eq_sum (inNbrs : List ℕ) (inWts : List ℚ) (prior : List ℚ) :
    updateNode inNbrs inWts prior =
      ((inNbrs.zip inWts).map (fun jw => jw.2 * (1 + prior.getD jw.1 0))).sum := by
  simpa [updateNode] using
    foldl_add_map_sum (fun jw => jw.2 * (1 + prior.getD jw.1 0)) 0 (inNbrs.zip inWts)

theorem engineLoop_zero (G : Graph) (tol : ℚ) (cur : List ℚ) (count : ℕ) :
    engineLoop G tol cur count 0 = (cur, count) := rfl

theorem engineLoop_succ (G : Graph) (tol : ℚ) (cur : List ℚ) (count fuel : ℕ) :
    engineLoop G tol cur count (fuel + 1) =
      if maxAbsDiff (sweep G cur) cur ≤ tol then (sweep G cur, count + 1)
      else engineLoop G tol (sweep G cur) (count + 1) fuel := rfl

theorem engineLoop_spec (G : Graph) (tol : ℚ) :
    ∀ (fuel k : ℕ), ∃ d, d ≤ fuel ∧
      engineLoop G tol (vcSteps G k) k fuel = (vcSteps G (k + d), k + d) ∧
      (∀ j, k ≤ j → j + 1 < k + d → tol < deltaAt G j) ∧
      (d < fuel → 0 < d ∧ deltaAt G (k + d - 1) ≤ tol) := by
  intro fuel
  induction fuel with
  | zero =>
    intro k
    exact ⟨0, le_refl 0, rfl, fun j hj1 hj2 => absurd hj2 (by omega),
      fun h => absurd h (by omega)⟩
  | succ fuel ih =>
    intro k
    have hsw : sweep G (vcSteps G k) = vcSteps G (k + 1) := rfl
    have hmd : maxAbsDiff (vcSteps G (k + 1)) (vcSteps G k) = deltaAt G k := rfl
    by_cases hstop : deltaAt G k ≤ tol
    · refine ⟨1, by omega, ?_, ?_, ?_⟩
      · rw [engineLoop_succ, hsw, hmd, if_pos hstop]
      · intro j hj1 hj2
        omega
      · intro _
        exact ⟨by omega, by simpa using hstop⟩
    · obtain ⟨d, hdle, heq, hnoearly, hstopped⟩ := ih (k + 1)
      refine ⟨d + 1, by omega, ?_, ?_, ?_⟩
      · rw [engineLoop_succ, hsw, hmd, if_neg hstop, heq,
          show k + 1 + d = k + (d + 1) from by omega]
      · intro j hj1 hj2
        rcases Nat.eq_or_lt_of_le hj1 with hj | hj
        · exact hj ▸ not_le.mp hstop
        · exact hnoearly j hj (by omega)
      · intro hlt
        obtain ⟨hd0, hdel⟩ := hstopped (by omega)
        exact ⟨by omega, by
          have : k + 1 + d - 1 = k + (d + 1) - 1 := by omega
          exact this ▸ hdel⟩

theorem engineRun_spec (G : Graph) (tol : ℚ) (m : ℕ) :
    ∃ n, n ≤ m ∧
      engineLoop G tol (vcSteps G 0) 0 m = (vcSteps G n, n) ∧
      (∀ j, j + 1 < n → tol < deltaAt G j) ∧
      (n < m → 0 < n ∧ deltaAt G (n - 1) ≤ tol) := by
  obtain ⟨d, hdle, heq, hnoearly, hstopped⟩ := engineLoop_spec G tol m 0
  exact ⟨d, hdle, by simpa using heq, fun j hj => hnoearly j (by omega) (by omega),
    fun h => by simpa using hstopped h⟩

/-! ## Validation lemmas -/

theorem RawWeight.isValid_iff (w : RawWeight) :
    w.IsValidWeight ↔ (w.isFiniteW = true ∧ w.isNegativeW = false) := by
  cases w <;> simp [RawWeight.IsValidWeight, RawWeight.isFiniteW, RawWeight.isNegativeW, not_lt]

theorem checkNode_ok_iff (N i : ℕ) (nd : RawNode) :
    checkNode N i nd = .ok () ↔ NodeOk N nd := by
  unfold checkNode
  by_cases hlen : nd.inNeighbors.length ≠ nd.inWeights.length
  · simp only [if_pos hlen]
    constructor
    · intro h
      cases h
    · intro h
      exact absurd h.1 hlen
  · simp only [if_neg hlen]
    push_neg at hlen
    rcases hfind : nd.inNeighbors.find? (fun j => N ≤ j) with _ | j
    · have hrange : ∀ j ∈ nd.inNeighbors, j < N := by
        intro j hj
        have := List.find?_eq_none.mp hfind j hj
        simpa using this
      by_cases hfin : nd.inWeights.any (fun w => ¬ w.isFiniteW)
      · simp only [if_pos hfin]
        obtain ⟨w, hw, hwp⟩ := List.any_eq_true.mp hfin
        constructor
        · intro h
          cases h
        · intro h
          have := (RawWeight.isValid_iff w).mp (h.2.2 w hw)
          simp only [this.1] at hwp
          simp at hwp
      · simp only [if_neg hfin]
        by_cases hneg : nd.inWeights.any (fun w => w.isNegativeW)
        · simp only [if_pos hneg]
          obtain ⟨w, hw, hwp⟩ := List.any_eq_true.mp hneg
          constructor
          · intro h
            cases h
          · intro h
            have := (RawWeight.isValid_iff w).mp (h.2.2 w hw)
            rw [this.2] at hwp
            cases hwp
        · simp only [if_neg hneg]
          constructor
          · intro _
            refine ⟨hlen, hrange, ?_⟩
            intro w hw
            rw [RawWeight.isValid_iff]
            constructor
            · by_contra hc
              exact hfin (List.any_eq_true.mpr ⟨w, hw, by simpa using hc⟩)
            · by_contra hc
              exact hneg (List.any_eq_true.mpr ⟨w, hw, by simpa using hc⟩)
          · intro _
            trivial
    · have hj := List.find?_some hfind
      have hjmem := List.mem_of_find?_eq_some hfind
      simp only []
      constructor
      · intro h
        cases h
      · intro h
        have := h.2.1 j hjmem
        simp at hj
        omega

theorem validateGo_ok_iff (N : ℕ) :
    ∀ (l : List RawNode) (i : ℕ),
      validateInput.go N i l = .ok () ↔ ∀ nd ∈ l, NodeOk N nd := by
  intro l
  induction l with
  | nil =>
    intro i
    simp [validateInput.go]
  | cons nd rest ih =>
    intro i
    unfold validateInput.go
    rcases hc : checkNode N i nd with e | u
    · simp only []
      constructor
      · intro h
        cases h
      · intro h
        have : checkNode N i nd = .ok () := (checkNode_ok_iff N i nd).mpr (h nd (by simp))
        rw [hc] at this
        cases this
    · cases u
      simp only []
      rw [ih (i + 1)]
      constructor
      · intro h
        intro nd' hnd'
        rcases List.mem_cons.mp hnd' with h1 | h1
        · exact h1 ▸ (checkNode_ok_iff N i nd).mp hc
        · exact h nd' h1
      · intro h nd' hnd'
        exact h nd' (List.mem_cons_of_mem nd hnd')

theorem validateInput_ok_iff (g : RawGraph) :
    validateInput g = .ok () ↔ ValidInput g :=
  validateGo_ok_iff g.N g.nodes 0

theorem checkNode_error (N i : ℕ) (nd : RawNode) (e : InvalidGraphInput) :
    checkNode N i nd = .error e →
      (e = .lengthMismatch i ∧ nd.inNeighbors.length ≠ nd.inWeights.length) ∨
      (∃ j, e = .outOfRangeId i j ∧ j ∈ nd.inNeighbors ∧ N ≤ j) ∨
      (e = .nonFiniteWeight i ∧ ∃ w ∈ nd.inWeights, w.isFiniteW = false) ∨
      (e = .negativeWeight i ∧ ∃ q, RawWeight.finite q ∈ nd.inWeights ∧ q < 0) := by
  unfold checkNode
  by_cases hlen : nd.inNeighbors.length ≠ nd.inWeights.length
  · simp only [if_pos hlen]
    intro h
    injection h with h
    exact Or.inl ⟨h.symm, hlen⟩
  · simp only [if_neg hlen]
    rcases hfind : nd.inNeighbors.find? (fun j => N ≤ j) with _ | j
    · simp only []
      by_cases hfin : nd.inWeights.any (fun w => ¬ w.isFiniteW)
      · simp only [if_pos hfin]
        intro h
        injection h with h
        obtain ⟨w, hw, hwp⟩ := List.any_eq_true.mp hfin
        refine Or.inr (Or.inr (Or.inl ⟨h.symm, w, hw, ?_⟩))
        simpa using hwp
      · simp only [if_neg hfin]
        by_cases hneg : nd.inWeights.any (fun w => w.isNegativeW)
        · simp only [if_pos hneg]
          intro h
          injection h with h
          obtain ⟨w, hw, hwp⟩ := List.any_eq_true.mp hneg
          refine Or.inr (Or.inr (Or.inr ⟨h.symm, ?_⟩))
          cases w with
          | finite q =>
            refine ⟨q, hw, ?_⟩
            simpa [RawWeight.isNegativeW] using hwp
          | nan => simp [RawWeight.isNegativeW] at hwp
          | posInf => simp [RawWeight.isNegativeW] at hwp
          | negInf => simp [RawWeight.isNegativeW] at hwp
        · simp only [if_neg hneg]
          intro h
          cases h
    · simp only []
      intro h
      injection h with h
      have hj := List.find?_some hfind
      have hjmem := List.mem_of_find?_eq_some hfind
      exact Or.inr (Or.inl ⟨j, h.symm, hjmem, by simpa using hj⟩)

theorem validateGo_error (g : RawGraph) (e : InvalidGraphInput) :
    ∀ (l : List RawNode) (i : ℕ),
      (∀ k nd, l.get? k = some nd → g.nodes.get? (i + k) = some nd) →
      validateInput.go g.N i l = .error e → ErrorAccurate g e := by
  intro l
  induction l with
  | nil =>
    intro i _ h
    cases h
  | cons nd rest ih =>
    intro i hsub h
    unfold validateInput.go at h
    rcases hc : checkNode g.N i nd with e' | u
    · rw [hc] at h
      injection h with h
      subst h
      have hnd : g.nodes.get? i = some nd := by
        have := hsub 0 nd (by simp)
        simpa using this
      rcases checkNode_error g.N i nd e' hc with h1 | ⟨j, h1, h2, h3⟩ | ⟨h1, w, h2, h3⟩ |
        ⟨h1, q, h2, h3⟩
      · exact h1.1 ▸ ⟨nd, hnd, h1.2⟩
      · exact h1 ▸ ⟨nd, hnd, h2, h3⟩
      · exact h1 ▸ ⟨nd, hnd, w, h2, h3⟩
      · exact h1 ▸ ⟨nd, hnd, q, h2, h3⟩
    · rw [hc] at h
      cases u
      refine ih (i + 1) ?_ h
      intro k nd' hk
      have := hsub (k + 1) nd' (by simpa using hk)
      rw [show i + (k + 1) = i + 1 + k from by omega] at this
      exact this

/-! ## Claim C1 -/

/-- C1: For every valid adjacency input, `computeViralCentrality` starts
from a spread-estimate vector of all zeros, and at each sweep the new
value of every node `i` equals the sum, over each in-neighbor `j` of `i`
with edge weight `w`, of the contribution `w * (1 + priorValue[j])`, where
`priorValue` is the previous sweep's vector (synchronous Jacobi-style
update); the returned vector is one of these iterates. -/
theorem viral_centrality_update_rule (g : RawGraph) (hv : ValidInput g) :
    vcSteps (toGraph g) 0 = List.replicate g.N 0 ∧
    (∀ n i, i < g.N →
      (vcSteps (toGraph g) (n + 1)).getD i 0 =
        ((((toGraph g).inN.getD i []).zip ((toGraph g).inW.getD i [])).map
          (fun jw => jw.2 * (1 + (vcSteps (toGraph g) n).getD jw.1 0))).sum) ∧
    (∀ maxIterations tolerance, ∃ k,
      computeViralCentrality g maxIterations tolerance = .ok (vcSteps (toGraph g) k)) := by
  have hN : (toGraph g).inN.length = g.N := by
    simp [toGraph, RawGraph.N]
  refine ⟨by rw [← hN]; rfl, ?_, ?_⟩
  · intro n i hi
    have h1 : vcSteps (toGraph g) (n + 1) = sweep (toGraph g) (vcSteps (toGraph g) n) := rfl
    rw [h1, sweep_getD _ _ _ (by omega), updateNode_eq_sum]
  · intro m tol
    obtain ⟨n, _, heq, _, _⟩ := engineRun_spec (toGraph g) tol m
    refine ⟨n, ?_⟩
    unfold computeViralCentrality
    rw [(validateInput_ok_iff g).mpr hv, heq]

/-- Witness for C1 at the spec's 2-node scenario. -/
theorem viral_centrality_update_rule_witness :
    ∃ k, computeViralCentrality exampleGraphTwo 5 (1 / 1000) =
      .ok (vcSteps (toGraph exampleGraphTwo) k) :=
  (viral_centrality_update_rule exampleGraphTwo (by decide)).2.2 5 (1 / 1000)

/-! ## Claim C2 -/

/-- C2: For every malformed input — a node whose in-neighbor list and
in-weight list have different lengths, a referenced node id outside
`[0, N)`, or a negative or non-finite weight — `computeViralCentrality`
fails with an `InvalidGraphInput` error before any iteration begins
(the same error for every `maxIterations`/`tolerance`), identifying the
offending node and field; it never returns a (partially computed) vector
on such input. -/
theorem viral_centrality_invalid_input (g : RawGraph) (hbad : ¬ ValidInput g) :
    ∃ e : InvalidGraphInput,
      validateInput g = .error e ∧ ErrorAccurate g e ∧
      (∀ maxIterations tolerance,
        computeViralCentrality g maxIterations tolerance = .error e) ∧
      (∀ tolerance h,
        computeViralCentralityUncapped g tolerance h = .error e) := by
  have hok : validateInput g ≠ .ok () := fun h => hbad ((validateInput_ok_iff g).mp h)
  rcases hval : validateInput g with e | u
  · refine ⟨e, rfl, ?_, ?_, ?_⟩
    · exact validateGo_error g e g.nodes 0 (by intro k nd h; simpa using h) hval
    · intro m tol
      unfold computeViralCentrality
      rw [hval]
    · intro tol h
      unfold computeViralCentralityUncapped
      rw [hval]
  · cases u
    exact absurd hval hok

/-- Witness for C2 at the spec's malformed scenario
(`inNeighbors = [[0]]`, `inWeights = [[1.0, 2.0]]`). -/
theorem viral_centrality_invalid_input_witness :
    ∃ e : InvalidGraphInput,
      validateInput exampleGraphBad = .error e ∧ ErrorAccurate exampleGraphBad e ∧
      (∀ maxIterations tolerance,
        computeViralCentrality exampleGraphBad maxIterations tolerance = .error e) ∧
      (∀ tolerance h,
        computeViralCentralityUncapped exampleGraphBad tolerance h = .error e) :=
  viral_centrality_invalid_input exampleGraphBad (by decide)

/-! ## Claim C3 -/

/-- C3: For every valid input, the iteration stops exactly when the
maximum absolute per-node change between consecutive sweeps is at most
`tolerance`, or — with a non-negative `maxIterations` instead of the
sentinel `-1` — when the sweep count reaches `maxIterations`, which
therefore bounds the number of sweeps performed; with the sentinel no
hard cap is applied: the uncapped run stops at the first
tolerance-satisfying sweep, and every sufficiently large cap returns the
same vector. -/
theorem viral_centrality_stopping (g : RawGraph) (hv : ValidInput g) (tolerance : ℚ) :
    (∀ maxIterations, ∃ n, n ≤ maxIterations ∧
      computeViralCentrality g maxIterations tolerance = .ok (vcSteps (toGraph g) n) ∧
      (∀ j, j + 1 < n → tolerance < deltaAt (toGraph g) j) ∧
      (n < maxIterations → 0 < n ∧ deltaAt (toGraph g) (n - 1) ≤ tolerance)) ∧
    (∀ h : ∃ k, deltaAt (toGraph g) k ≤ tolerance,
      computeViralCentralityUncapped g tolerance h =
        .ok (vcSteps (toGraph g) (Nat.find h + 1)) ∧
      deltaAt (toGraph g) (Nat.find h) ≤ tolerance ∧
      (∀ j < Nat.find h, tolerance < deltaAt (toGraph g) j) ∧
      (∀ maxIterations, Nat.find h + 1 ≤ maxIterations →
        computeViralCentrality g maxIterations tolerance =
          .ok (vcSteps (toGraph g) (Nat.find h + 1)))) := by
  have hvok := (validateInput_ok_iff g).mpr hv
  have hcap : ∀ m, ∃ n, n ≤ m ∧
      computeViralCentrality g m tolerance = .ok (vcSteps (toGraph g) n) ∧
      (∀ j, j + 1 < n → tolerance < deltaAt (toGraph g) j) ∧
      (n < m → 0 < n ∧ deltaAt (toGraph g) (n - 1) ≤ tolerance) := by
    intro m
    obtain ⟨n, hnm, heq, hnoearly, hstopped⟩ := engineRun_spec (toGraph g) tolerance m
    refine ⟨n, hnm, ?_, hnoearly, hstopped⟩
    unfold computeViralCentrality
    rw [hvok, heq]
  refine ⟨hcap, ?_⟩
  intro h
  refine ⟨?_, Nat.find_spec h, fun j hj => not_le.mp (Nat.find_min h hj), ?_⟩
  · unfold computeViralCentralityUncapped
    rw [hvok]
  · intro m hm
    obtain ⟨n, hnm, heq, hnoearly, hstopped⟩ := hcap m
    suffices hsame : n = Nat.find h + 1 by
      rw [← hsame]
      exact heq
    rcases lt_trichotomy n (Nat.find h + 1) with hlt | heqn | hgt
    · obtain ⟨hn0, hdel⟩ := hstopped (by omega)
      have := Nat.find_min' h hdel
      omega
    · exact heqn
    · have := hnoearly (Nat.find h) (by omega)
      exact absurd (Nat.find_spec h) (not_le.mpr this)

/-- Witness for C3 at the spec's 2-node scenario with
`tolerance = 0.001`. -/
theorem viral_centrality_stopping_witness :
    (∀ maxIterations, ∃ n, n ≤ maxIterations ∧
      computeViralCentrality exampleGraphTwo maxIterations (1 / 1000) =
        .ok (vcSteps (toGraph exampleGraphTwo) n) ∧
      (∀ j, j + 1 < n → (1 / 1000 : ℚ) < deltaAt (toGraph exampleGraphTwo) j) ∧
      (n < maxIterations → 0 < n ∧
        deltaAt (toGraph exampleGraphTwo) (n - 1) ≤ 1 / 1000)) ∧
    (∀ h : ∃ k, deltaAt (toGraph exampleGraphTwo) k ≤ 1 / 1000,
      computeViralCentralityUncapped exampleGraphTwo (1 / 1000) h =
        .ok (vcSteps (toGraph exampleGraphTwo) (Nat.find h + 1)) ∧
      deltaAt (toGraph exampleGraphTwo) (Nat.find h) ≤ 1 / 1000 ∧
      (∀ j < Nat.find h, (1 / 1000 : ℚ) < deltaAt (toGraph exampleGraphTwo) j) ∧
      (∀ maxIterations, Nat.find h + 1 ≤ maxIterations →
        computeViralCentrality exampleGraphTwo maxIterations (1 / 1000) =
          .ok (vcSteps (toGraph exampleGraphTwo) (Nat.find h + 1)))) :=
  viral_centrality_stopping exampleGraphTwo (by decide) (1 / 1000)

/-! ## Claim C4 -/

theorem vcSteps_zero_getD (G : Graph) (i : ℕ) : (vcSteps G 0).getD i 0 = 0 := by
  simp [vcSteps, List.getD_eq_getElem?_getD, List.getElem?_replicate]
  split <;> rfl

theorem vcSteps_getD_of_no_in_neighbors (G : Graph) (i : ℕ)
    (h : G.inN.getD i [] = []) : ∀ n, (vcSteps G n).getD i 0 = 0 := by
  intro n
  cases n with
  | zero => exact vcSteps_zero_getD G i
  | succ n =>
    by_cases hi : i < G.inN.length
    · rw [show vcSteps G (n + 1) = sweep G (vcSteps G n) from rfl, sweep_getD G _ i hi, h]
      rfl
    · rw [List.getD_eq_getElem?_getD, List.getElem?_eq_none]
      · rfl
      · rw [vcSteps_length]
        omega

theorem vcSteps_all_zero (G : Graph) (h : ∀ l ∈ G.inN, l = []) :
    ∀ n, vcSteps G n = List.replicate G.inN.length 0 := by
  intro n
  cases n with
  | zero => rfl
  | succ n =>
    rw [List.eq_replicate_iff]
    constructor
    · rw [show vcSteps G (n + 1) = sweep G (vcSteps G n) from rfl]
      simp [sweep]
    · intro b hb
      rw [show vcSteps G (n + 1) = sweep G (vcSteps G n) from rfl] at hb
      obtain ⟨i, hi, hval⟩ := List.mem_map.mp hb
      have hirange : i < G.inN.length := List.mem_range.mp hi
      have hempty : G.inN.getD i [] = [] := by
        apply h
        rw [List.getD_eq_getElem?_getD, List.getElem?_eq_getElem hirange]
        exact List.getElem_mem hirange
      rw [hempty] at hval
      exact hval.symm

/-- C4: For every node whose in-neighbor list is empty,
`computeViralCentrality` returns exactly 0 for that node regardless of
`tolerance` and `maxIterations` (capped or uncapped); and for every graph
with zero edges — in particular a single isolated node — the returned
vector is all zeros. -/
theorem viral_centrality_no_in_neighbors (g : RawGraph) (hv : ValidInput g) :
    (∀ i nd, g.nodes.get? i = some nd → nd.inNeighbors = [] →
      (∀ maxIterations tolerance v,
        computeViralCentrality g maxIterations tolerance = .ok v → v.getD i 0 = 0) ∧
      (∀ tolerance h v,
        computeViralCentralityUncapped g tolerance h = .ok v → v.getD i 0 = 0)) ∧
    ((∀ nd ∈ g.nodes, nd.inNeighbors = []) →
      ∀ maxIterations tolerance v,
        computeViralCentrality g maxIterations tolerance = .ok v →
        v = List.replicate g.N 0) := by
  have hvok := (validateInput_ok_iff g).mpr hv
  have hcapsteps : ∀ m tol v, computeViralCentrality g m tol = .ok v →
      ∃ n, v = vcSteps (toGraph g) n := by
    intro m tol v hrun
    obtain ⟨n, _, heq, _, _⟩ := engineRun_spec (toGraph g) tol m
    refine ⟨n, ?_⟩
    unfold computeViralCentrality at hrun
    rw [hvok, heq] at hrun
    exact (Except.ok.injEq _ _).mp hrun.symm
  constructor
  · intro i nd hnd hempty
    have hgetD : (toGraph g).inN.getD i [] = [] := by
      rw [List.getD_eq_getElem?_getD]
      have : (toGraph g).inN[i]? = some nd.inNeighbors := by
        rw [toGraph, List.getElem?_map, ← List.get?_eq_getElem?, hnd]
        rfl
      rw [this, hempty]
      rfl
    constructor
    · intro m tol v hrun
      obtain ⟨n, hn⟩ := hcapsteps m tol v hrun
      rw [hn]
      exact vcSteps_getD_of_no_in_neighbors (toGraph g) i hgetD n
    · intro tol h v hrun
      unfold computeViralCentralityUncapped at hrun
      rw [hvok] at hrun
      have hn : v = vcSteps (toGraph g) (Nat.find h + 1) :=
        (Except.ok.injEq _ _).mp hrun.symm
      rw [hn]
      exact vcSteps_getD_of_no_in_neighbors (toGraph g) i hgetD _
  · intro hall m tol v hrun
    obtain ⟨n, hn⟩ := hcapsteps m tol v hrun
    have hinN : ∀ l ∈ (toGraph g).inN, l = [] := by
      intro l hl
      obtain ⟨nd, hnd, hmap⟩ := List.mem_map.mp hl
      rw [← hmap]
      exact hall nd hnd
    have hN : (toGraph g).inN.length = g.N := by
      simp [toGraph, RawGraph.N]
    rw [hn, vcSteps_all_zero (toGraph g) hinN n, hN]

/-- Witness for C4 at the 2-node edgeless graph. -/
theorem viral_centrality_no_in_neighbors_witness :
    (∀ i nd, exampleGraphIsolated.nodes.get? i = some nd → nd.inNeighbors = [] →
      (∀ maxIterations tolerance v,
        computeViralCentrality exampleGraphIsolated maxIterations tolerance = .ok v →
          v.getD i 0 = 0) ∧
      (∀ tolerance h v,
        computeViralCentralityUncapped exampleGraphIsolated tolerance h = .ok v →
          v.getD i 0 = 0)) ∧
    ((∀ nd ∈ exampleGraphIsolated.nodes, nd.inNeighbors = []) →
      ∀ maxIterations tolerance v,
        computeViralCentrality exampleGraphIsolated maxIterations tolerance = .ok v →
        v = List.replicate exampleGraphIsolated.N 0) :=
  viral_centrality_no_in_neighbors exampleGraphIsolated (by decide)

/-! ## Claim C5 -/

theorem getD_mem_or_default {α : Type} (l : List α) (i : ℕ) (d : α) :
    l.getD i d ∈ l ∨ l.getD i d = d := by
  by_cases h : i < l.length
  · left
    rw [List.getD_eq_getElem?_getD, List.getElem?_eq_getElem h]
    exact List.getElem_mem h
  · right
    rw [List.getD_eq_getElem?_getD, List.getElem?_eq_none (by omega)]
    rfl

theorem updateNode_nonneg (inNbrs : List ℕ) (inWts : List ℚ) (prior : List ℚ)
    (hw : ∀ w ∈ inWts, 0 ≤ w) (hp : ∀ j, 0 ≤ prior.getD j 0) :
    0 ≤ updateNode inNbrs inWts prior := by
  rw [updateNode_eq_sum]
  apply List.sum_nonneg
  intro x hx
  obtain ⟨jw, hjw, hval⟩ := List.mem_map.mp hx
  rw [← hval]
  have hw2 := hw jw.2 (List.of_mem_zip hjw).2
  have hp2 := hp jw.1
  positivity

theorem updateNode_mono (inNbrs : List ℕ) (inWts : List ℚ) (prior prior' : List ℚ)
    (hw : ∀ w ∈ inWts, 0 ≤ w)
    (hp : ∀ j, prior.getD j 0 ≤ prior'.getD j 0) :
    updateNode inNbrs inWts prior ≤ updateNode inNbrs inWts prior' := by
  rw [updateNode_eq_sum, updateNode_eq_sum]
  apply List.sum_le_sum
  intro jw hjw
  have hw2 := hw jw.2 (List.of_mem_zip hjw).2
  exact mul_le_mul_of_nonneg_left (by linarith [hp jw.1]) hw2

theorem toGraph_inW_nonneg (g : RawGraph) (hv : ValidInput g) :
    ∀ l ∈ (toGraph g).inW, ∀ w ∈ l, 0 ≤ w := by
  intro l hl w hw
  obtain ⟨nd, hnd, hmap⟩ := List.mem_map.mp hl
  rw [← hmap] at hw
  obtain ⟨rw0, hrw0, hval⟩ := List.mem_map.mp hw
  have := (hv nd hnd).2.2 rw0 hrw0
  cases rw0 with
  | finite q =>
    rw [← hval]
    exact this
  | nan => cases this
  | posInf => cases this
  | negInf => cases this

theorem getD_inW_nonneg (G : Graph) (hw : ∀ l ∈ G.inW, ∀ w ∈ l, 0 ≤ w) (i : ℕ) :
    ∀ w ∈ G.inW.getD i [], 0 ≤ w := by
  rcases getD_mem_or_default G.inW i [] with h | h
  · exact hw _ h
  · rw [h]
    intro w hw2
    cases hw2

theorem vcSteps_nonneg (G : Graph) (hw : ∀ l ∈ G.inW, ∀ w ∈ l, 0 ≤ w) :
    ∀ n i, 0 ≤ (vcSteps G n).getD i 0 := by
  intro n
  induction n with
  | zero =>
    intro i
    rw [vcSteps_zero_getD]
  | succ n ih =>
    intro i
    by_cases hi : i < G.inN.length
    · rw [show vcSteps G (n + 1) = sweep G (vcSteps G n) from rfl, sweep_getD G _ i hi]
      exact updateNode_nonneg _ _ _ (getD_inW_nonneg G hw i) ih
    · rw [List.getD_eq_getElem?_getD, List.getElem?_eq_none (by rw [vcSteps_length]; omega)]
      simp

theorem vcSteps_succ_mono (G : Graph) (hw : ∀ l ∈ G.inW, ∀ w ∈ l, 0 ≤ w) :
    ∀ n i, (vcSteps G n).getD i 0 ≤ (vcSteps G (n + 1)).getD i 0 := by
  intro n
  induction n with
  | zero =>
    intro i
    rw [vcSteps_zero_getD]
    exact vcSteps_nonneg G hw 1 i
  | succ n ih =>
    intro i
    by_cases hi : i < G.inN.length
    · rw [show vcSteps G (n + 1) = sweep G (vcSteps G n) from rfl,
        show vcSteps G (n + 2) = sweep G (vcSteps G (n + 1)) from rfl,
        sweep_getD G _ i hi, sweep_getD G _ i hi]
      exact updateNode_mono _ _ _ _ (getD_inW_nonneg G hw i) ih
    · rw [List.getD_eq_getElem?_getD, List.getElem?_eq_none (by rw [vcSteps_length]; omega),
        List.getD_eq_getElem?_getD, List.getElem?_eq_none (by rw [vcSteps_length]; omega)]

theorem vcSteps_mono (G : Graph) (hw : ∀ l ∈ G.inW, ∀ w ∈ l, 0 ≤ w)
    {m m' : ℕ} (hmm : m ≤ m') (i : ℕ) :
    (vcSteps G m).getD i 0 ≤ (vcSteps G m').getD i 0 := by
  induction m' with
  | zero =>
    rw [Nat.le_zero.mp hmm]
  | succ m' ih =>
    rcases Nat.lt_or_ge m (m' + 1) with h | h
    · exact le_trans (ih (by omega)) (vcSteps_succ_mono G hw m' i)
    · rw [Nat.le_antisymm hmm h]

theorem vcSteps_le_fixed (G : Graph) (hw : ∀ l ∈ G.inW, ∀ w ∈ l, 0 ≤ w)
    (vstar : List ℚ) (hfix : sweep G vstar = vstar) (hpos : ∀ i, 0 ≤ vstar.getD i 0) :
    ∀ n i, (vcSteps G n).getD i 0 ≤ vstar.getD i 0 := by
  intro n
  induction n with
  | zero =>
    intro i
    rw [vcSteps_zero_getD]
    exact hpos i
  | succ n ih =>
    intro i
    by_cases hi : i < G.inN.length
    · rw [show vcSteps G (n + 1) = sweep G (vcSteps G n) from rfl, sweep_getD G _ i hi]
      calc updateNode (G.inN.getD i []) (G.inW.getD i []) (vcSteps G n)
          ≤ updateNode (G.inN.getD i []) (G.inW.getD i []) vstar :=
            updateNode_mono _ _ _ _ (getD_inW_nonneg G hw i) ih
        _ = (sweep G vstar).getD i 0 := (sweep_getD G vstar i hi).symm
        _ = vstar.getD i 0 := by rw [hfix]
    · rw [List.getD_eq_getElem?_getD, List.getElem?_eq_none (by rw [vcSteps_length]; omega)]
      exact hpos i

theorem foldl_max_le_iff (l : List ℚ) (a b : ℚ) :
    l.foldl max a ≤ b ↔ a ≤ b ∧ ∀ x ∈ l, x ≤ b := by
  induction l generalizing a with
  | nil => simp
  | cons x xs ih =>
    rw [List.foldl_cons, ih]
    constructor
    · rintro ⟨h1, h2⟩
      exact ⟨le_trans (le_max_left a x) h1,
        fun y hy => by
          rcases List.mem_cons.mp hy with h | h
          · exact h ▸ le_trans (le_max_right a x) h1
          · exact h2 y h⟩
    · rintro ⟨h1, h2⟩
      exact ⟨max_le h1 (h2 x (by simp)), fun y hy => h2 y (List.mem_cons_of_mem x hy)⟩

theorem le_foldl_max (l : List ℚ) : ∀ a : ℚ, a ≤ l.foldl max a := by
  induction l with
  | nil => exact fun a => le_refl a
  | cons x xs ih => exact fun a => le_trans (le_max_left a x) (ih (max a x))

theorem maxAbsDiff_nonneg (v w : List ℚ) : 0 ≤ maxAbsDiff v w :=
  le_foldl_max _ 0

theorem maxAbsDiff_eq_of_le_zero (v w : List ℚ) (hlen : v.length = w.length)
    (h : maxAbsDiff v w ≤ 0) : v = w := by
  unfold maxAbsDiff at h
  rw [foldl_max_le_iff] at h
  apply List.ext_getElem hlen
  intro i h1 h2
  have hmem : |v[i] - w[i]| ∈ (v.zip w).map (fun p => |p.1 - p.2|) := by
    apply List.mem_map.mpr
    refine ⟨(v[i], w[i]), ?_, rfl⟩
    rw [← List.getElem_zip]
    exact List.getElem_mem (by rw [List.length_zip]; omega)
  have := h.2 _ hmem
  have habs : |v[i] - w[i]| = 0 := le_antisymm this (abs_nonneg _)
  have := abs_eq_zero.mp habs
  linarith

theorem vcSteps_stabilize (G : Graph) (k : ℕ) (h : vcSteps G (k + 1) = vcSteps G k) :
    ∀ m, k ≤ m → vcSteps G m = vcSteps G k := by
  intro m
  induction m with
  | zero =>
    intro hm
    rw [Nat.le_zero.mp hm]
  | succ m ih =>
    intro hm
    rcases Nat.lt_or_ge k (m + 1) with h1 | h1
    · have hmk : k ≤ m := by omega
      calc vcSteps G (m + 1) = sweep G (vcSteps G m) := rfl
        _ = sweep G (vcSteps G k) := by rw [ih hmk]
        _ = vcSteps G (k + 1) := rfl
        _ = vcSteps G k := h
    · rw [Nat.le_antisymm hm h1]

theorem capped_run_tol_zero (g : RawGraph) (hv : ValidInput g) (m : ℕ) :
    computeViralCentrality g m 0 = .ok (vcSteps (toGraph g) m) := by
  obtain ⟨n, hnm, heq, _, hstopped⟩ := engineRun_spec (toGraph g) 0 m
  have hres : computeViralCentrality g m 0 = .ok (vcSteps (toGraph g) n) := by
    unfold computeViralCentrality
    rw [(validateInput_ok_iff g).mpr hv, heq]
  rcases Nat.lt_or_ge n m with hlt | hge
  · obtain ⟨hn0, hdel⟩ := hstopped hlt
    have hzero : deltaAt (toGraph g) (n - 1) = 0 :=
      le_antisymm hdel (maxAbsDiff_nonneg _ _)
    have hstab : vcSteps (toGraph g) (n - 1 + 1) = vcSteps (toGraph g) (n - 1) :=
      maxAbsDiff_eq_of_le_zero _ _ (by rw [vcSteps_length, vcSteps_length]) (le_of_eq hzero)
    have h1 : vcSteps (toGraph g) m = vcSteps (toGraph g) (n - 1) :=
      vcSteps_stabilize _ _ hstab m (by omega)
    have h2 : vcSteps (toGraph g) n = vcSteps (toGraph g) (n - 1) :=
      vcSteps_stabilize _ _ hstab n (by omega)
    rw [hres, h2, ← h1]
  · rw [Nat.le_antisymm hnm hge] at hres
    exact hres

/-- C5: For every valid graph (hence non-negative weights) with
`tolerance = 0`, the run with cap `maxIterations` returns exactly the
`maxIterations`-th Jacobi iterate; these iterates start at the all-zero
vector, are pointwise non-decreasing as `maxIterations` increases, and
are bounded above by every non-negative fixed point of the sweep — the
monotone convergence from zero-initialization toward the fixed point. -/
theorem viral_centrality_monotone (g : RawGraph) (hv : ValidInput g) :
    (∀ maxIterations, computeViralCentrality g maxIterations 0 =
      .ok (vcSteps (toGraph g) maxIterations)) ∧
    computeViralCentrality g 0 0 = .ok (List.replicate g.N 0) ∧
    (∀ m m', m ≤ m' → ∀ i,
      (vcSteps (toGraph g) m).getD i 0 ≤ (vcSteps (toGraph g) m').getD i 0) ∧
    (∀ vstar, sweep (toGraph g) vstar = vstar → (∀ i, 0 ≤ vstar.getD i 0) →
      ∀ m i, (vcSteps (toGraph g) m).getD i 0 ≤ vstar.getD i 0) := by
  have hw := toGraph_inW_nonneg g hv
  refine ⟨capped_run_tol_zero g hv, ?_, ?_, ?_⟩
  · rw [capped_run_tol_zero g hv 0]
    have hN : (toGraph g).inN.length = g.N := by
      simp [toGraph, RawGraph.N]
    rw [show vcSteps (toGraph g) 0 = List.replicate (toGraph g).inN.length 0 from rfl, hN]
  · intro m m' hmm i
    exact vcSteps_mono (toGraph g) hw hmm i
  · intro vstar hfix hpos m i
    exact vcSteps_le_fixed (toGraph g) hw vstar hfix hpos m i

/-- Witness for C5 at the spec's 2-node scenario. -/
theorem viral_centrality_monotone_witness :
    (∀ maxIterations, computeViralCentrality exampleGraphTwo maxIterations 0 =
      .ok (vcSteps (toGraph exampleGraphTwo) maxIterations)) ∧
    computeViralCentrality exampleGraphTwo 0 0 =
      .ok (List.replicate exampleGraphTwo.N 0) ∧
    (∀ m m', m ≤ m' → ∀ i,
      (vcSteps (toGraph exampleGraphTwo) m).getD i 0 ≤
        (vcSteps (toGraph exampleGraphTwo) m').getD i 0) ∧
    (∀ vstar, sweep (toGraph exampleGraphTwo) vstar = vstar →
      (∀ i, 0 ≤ vstar.getD i 0) →
      ∀ m i, (vcSteps (toGraph exampleGraphTwo) m).getD i 0 ≤ vstar.getD i 0) :=
  viral_centrality_monotone exampleGraphTwo (by decide)

/-! ## Builder lemmas -/

theorem add_or_update_mem (g : MGraph) (a b : ℕ) (uids : List ℕ) :
    ∀ e ∈ (add_or_update_edge_in_graph g a b uids).edges,
      e ∈ g.edges ∨ (e.src = a ∧ e.dst = b ∧ a ≠ b) := by
  intro e he
  unfold add_or_update_edge_in_graph at he
  split_ifs at he with hguard
  · rcases hfind : g.get_edge_data a b (generate_edge_key a b) with _ | e0 <;>
      rw [hfind] at he
    · simp only [MGraph.add_edge, List.mem_append] at he
      rcases he with h | h
      · exact Or.inl h
      · simp only [List.mem_singleton] at h
        subst h
        exact Or.inr ⟨rfl, rfl, hguard.1⟩
    · simp only [List.mem_map] at he
      obtain ⟨e0', he0', heq⟩ := he
      by_cases hm : e0'.src = a ∧ e0'.dst = b ∧ e0'.key = generate_edge_key a b
      · rw [if_pos hm] at heq
        refine Or.inr ⟨?_, ?_, hguard.1⟩
        · rw [← heq]
          exact hm.1
        · rw [← heq]
          exact hm.2.1
      · rw [if_neg hm] at heq
        exact Or.inl (heq ▸ he0')
  · exact Or.inl he

theorem add_or_update_mem_iff (g : MGraph) (a b : ℕ) (uids : List ℕ) (e : Edge)
    (hsrc : e.src = b) :
    e ∈ (add_or_update_edge_in_graph g a b uids).edges ↔ e ∈ g.edges := by
  unfold add_or_update_edge_in_graph
  split_ifs with hguard
  · have hab : a ≠ b := hguard.1
    rcases hfind : g.get_edge_data a b (generate_edge_key a b) with _ | e0
    · simp only [MGraph.add_edge, List.mem_append, List.mem_singleton]
      constructor
      · rintro (h | h)
        · exact h
        · exfalso
          apply hab
          rw [h] at hsrc
          exact hsrc
      · exact Or.inl
    · simp only [List.mem_map]
      constructor
      · rintro ⟨e0', he0', heq⟩
        by_cases hm : e0'.src = a ∧ e0'.dst = b ∧ e0'.key = generate_edge_key a b
        · rw [if_pos hm] at heq
          exfalso
          apply hab
          rw [← heq] at hsrc
          rw [← hm.1]
          exact hsrc
        · rw [if_neg hm] at heq
          exact heq ▸ he0'
      · intro hmem
        refine ⟨e, hmem, ?_⟩
        rw [if_neg ?_]
        rintro ⟨h1, _, _⟩
        exact hab (hsrc ▸ h1).symm
  · exact Iff.rfl

theorem foldl_graph_mem {α : Type} (P : Edge → Prop) (f : MGraph → α → MGraph)
    (hf : ∀ g x, ∀ e ∈ (f g x).edges, e ∈ g.edges ∨ P e) :
    ∀ (l : List α) (g : MGraph), ∀ e ∈ (l.foldl f g).edges, e ∈ g.edges ∨ P e := by
  intro l
  induction l with
  | nil => exact fun g e he => Or.inl he
  | cons x xs ih =>
    intro g e he
    rcases ih (f g x) e he with h | h
    · exact hf g x e h
    · exact Or.inr h

theorem foldl_graph_mem_iff {α : Type} (Q : Edge → Prop) (f : MGraph → α → MGraph)
    (hf : ∀ g x e, Q e → (e ∈ (f g x).edges ↔ e ∈ g.edges)) :
    ∀ (l : List α) (g : MGraph) (e : Edge), Q e →
      (e ∈ (l.foldl f g).edges ↔ e ∈ g.edges) := by
  intro l
  induction l with
  | nil => exact fun g e _ => Iff.rfl
  | cons x xs ih =>
    intro g e hQ
    rw [List.foldl_cons, ih (f g x) e hQ, hf g x e hQ]

theorem foldl_ite_filter (f : MGraph → ℕ → MGraph) (p : ℕ → Prop) [DecidablePred p] :
    ∀ (l : List ℕ) (g : MGraph),
      l.foldl (fun g2 b => if p b then f g2 b else g2) g =
        (l.filter (fun b => decide (p b))).foldl f g := by
  intro l
  induction l with
  | nil => exact fun g => rfl
  | cons x xs ih =>
    intro g
    by_cases hx : p x
    · rw [List.foldl_cons, if_pos hx, List.filter_cons_of_pos (by simpa using hx), ih,
        List.foldl_cons]
    · rw [List.foldl_cons, if_neg hx, List.filter_cons_of_neg (by simpa using hx), ih]

theorem process_potential_edges_eq (curr : ℕ) (uids : List ℕ) (t : Tweet) (g : MGraph) :
    process_potential_edges curr uids t g =
      (t.mentioned_user_ids.filter
          (fun b => decide (b ∉ replied_retweeted_quoted_ids t))).foldl
        (fun g2 b => add_or_update_edge_in_graph g2 b curr uids)
        ((match t.retweeted_author_ids, t.quoted_author_ids with
          | some rts, some qts => rts ++ qts
          | _, _ => ([] : List ℕ)).foldl
          (fun g2 b => add_or_update_edge_in_graph g2 b curr uids)
          ((match t.replied_to_author_ids with
            | some ids => ids
            | none => ([] : List ℕ)).foldl
            (fun g2 b => add_or_update_edge_in_graph g2 b curr uids) g)) := by
  unfold process_potential_edges replied_retweeted_quoted_ids
  rcases t.replied_to_author_ids with _ | rs <;>
    rcases t.retweeted_author_ids with _ | rts <;>
    rcases t.quoted_author_ids with _ | qts <;>
    simp only [List.foldl_nil, List.append_nil, List.nil_append] <;>
    rw [foldl_ite_filter]

theorem process_as_interactions (curr : ℕ) (uids : List ℕ) (t : Tweet) (g : MGraph) :
    process_potential_edges curr uids t g =
      (tweet_interactions curr t).foldl
        (fun g2 p => add_or_update_edge_in_graph g2 p.1 p.2 uids) g := by
  rw [process_potential_edges_eq]
  unfold tweet_interactions
  rw [List.map_append, List.map_append, List.foldl_append, List.foldl_append,
    List.foldl_map, List.foldl_map, List.foldl_map]

theorem user_interactions_fold (u : ℕ) (uids : List ℕ) :
    ∀ (ts : List Tweet) (g : MGraph),
      ts.foldl (fun g2 t => process_potential_edges u uids t g2) g =
        (user_interactions u ts).foldl
          (fun g2 p => add_or_update_edge_in_graph g2 p.1 p.2 uids) g := by
  intro ts
  induction ts with
  | nil => exact fun g => rfl
  | cons t ts ih =>
    intro g
    rw [List.foldl_cons, ih,
      show user_interactions u (t :: ts) = tweet_interactions u t ++ user_interactions u ts
        from rfl,
      List.foldl_append, process_as_interactions]

theorem build_edges_eq (ut : UserTweets) :
    build_edges ut =
      (all_interactions ut).foldl
        (fun g p => add_or_update_edge_in_graph g p.1 p.2 (userIdsOf ut)) MGraph.empty := by
  unfold build_edges
  suffices h : ∀ (l : UserTweets) (g : MGraph),
      l.foldl (fun g p => p.2.foldl
        (fun g2 t => process_potential_edges p.1 (userIdsOf ut) t g2) g) g =
      (all_interactions l).foldl
        (fun g p => add_or_update_edge_in_graph g p.1 p.2 (userIdsOf ut)) g by
    exact h ut MGraph.empty
  intro l
  induction l with
  | nil => exact fun g => rfl
  | cons p rest ih =>
    intro g
    rw [List.foldl_cons, ih,
      show all_interactions (p :: rest) =
        user_interactions p.1 p.2 ++ all_interactions rest from rfl,
      List.foldl_append, user_interactions_fold]

theorem process_potential_edges_mem (curr : ℕ) (uids : List ℕ) (t : Tweet) (g : MGraph) :
    ∀ e ∈ (process_potential_edges curr uids t g).edges,
      e ∈ g.edges ∨ (e.dst = curr ∧ e.src ≠ curr) := by
  rw [process_potential_edges_eq]
  have hf : ∀ (g2 : MGraph) (b : ℕ),
      ∀ e ∈ (add_or_update_edge_in_graph g2 b curr uids).edges,
        e ∈ g2.edges ∨ (e.dst = curr ∧ e.src ≠ curr) := by
    intro g2 b e he
    rcases add_or_update_mem g2 b curr uids e he with h | ⟨h1, h2, h3⟩
    · exact Or.inl h
    · refine Or.inr ⟨h2, ?_⟩
      rw [h1]
      exact h3
  intro e he
  rcases foldl_graph_mem _ _ hf _ _ e he with h | h
  · rcases foldl_graph_mem _ _ hf _ _ e h with h2 | h2
    · rcases foldl_graph_mem _ _ hf _ _ e h2 with h3 | h3
      · exact Or.inl h3
      · exact Or.inr h3
    · exact Or.inr h2
  · exact Or.inr h

theorem process_potential_edges_mem_iff (curr : ℕ) (uids : List ℕ) (t : Tweet)
    (g : MGraph) (e : Edge) (hsrc : e.src = curr) :
    e ∈ (process_potential_edges curr uids t g).edges ↔ e ∈ g.edges := by
  rw [process_potential_edges_eq]
  have hf : ∀ (g2 : MGraph) (b : ℕ) (e : Edge), e.src = curr →
      (e ∈ (add_or_update_edge_in_graph g2 b curr uids).edges ↔ e ∈ g2.edges) :=
    fun g2 b e h => add_or_update_mem_iff g2 b curr uids e h
  rw [foldl_graph_mem_iff _ _ hf _ _ e hsrc, foldl_graph_mem_iff _ _ hf _ _ e hsrc,
    foldl_graph_mem_iff _ _ hf _ _ e hsrc]

theorem countedPair_iff (uids : List ℕ) (a b : ℕ) :
    countedPair uids (a, b) = true ↔ (a ≠ b ∧ a ∈ uids ∧ b ∈ uids) := by
  simp [countedPair, and_assoc]

theorem filter_pair_length_le_one (g : MGraph) (hu : PairUniq g) (u v : ℕ) :
    (g.edges.filter (fun e => decide (e.src = u ∧ e.dst = v))).length ≤ 1 := by
  have hp : (g.edges.filter (fun e => decide (e.src = u ∧ e.dst = v))).Pairwise
      (fun e1 e2 => ¬ (e1.src = e2.src ∧ e1.dst = e2.dst)) := List.Pairwise.filter _ hu
  rcases hl : g.edges.filter (fun e => decide (e.src = u ∧ e.dst = v)) with
    _ | ⟨x, _ | ⟨y, rest⟩⟩
  · rw [hl]
    simp
  · rw [hl]
    simp
  · exfalso
    rw [hl] at hp
    have hxy : ¬ (x.src = y.src ∧ x.dst = y.dst) :=
      (List.pairwise_cons.mp hp).1 y (by simp)
    have hx : x ∈ g.edges.filter (fun e => decide (e.src = u ∧ e.dst = v)) := by
      rw [hl]; simp
    have hy : y ∈ g.edges.filter (fun e => decide (e.src = u ∧ e.dst = v)) := by
      rw [hl]; simp
    have hx2 := List.mem_filter.mp hx
    have hy2 := List.mem_filter.mp hy
    simp only [decide_eq_true_eq] at hx2 hy2
    exact hxy ⟨by rw [hx2.2.1, hy2.2.1], by rw [hx2.2.2, hy2.2.2]⟩

theorem filter_pair_singleton (g : MGraph) (hu : PairUniq g) (e : Edge)
    (he : e ∈ g.edges) :
    g.edges.filter (fun e2 => decide (e2.src = e.src ∧ e2.dst = e.dst)) = [e] := by
  have hmem : e ∈ g.edges.filter (fun e2 => decide (e2.src = e.src ∧ e2.dst = e.dst)) :=
    List.mem_filter.mpr ⟨he, by simp⟩
  have hlen := filter_pair_length_le_one g hu e.src e.dst
  rcases hl : g.edges.filter (fun e2 => decide (e2.src = e.src ∧ e2.dst = e.dst)) with
    _ | ⟨x, rest⟩
  · rw [hl] at hmem
    cases hmem
  · rw [hl] at hmem hlen
    have hrest : rest = [] := by
      cases rest with
      | nil => rfl
      | cons y ys => simp at hlen
    subst hrest
    simp only [List.mem_singleton] at hmem
    subst hmem
    exact hl

theorem edgeWeightTotal_eq_weight (g : MGraph) (hu : PairUniq g) (e : Edge)
    (he : e ∈ g.edges) : edgeWeightTotal g e.src e.dst = e.weight := by
  unfold edgeWeightTotal
  rw [filter_pair_singleton g hu e he]
  simp

theorem add_or_update_weightTotal (g : MGraph) (a b : ℕ) (uids : List ℕ)
    (hu : PairUniq g) (u v : ℕ) :
    edgeWeightTotal (add_or_update_edge_in_graph g a b uids) u v =
      edgeWeightTotal g u v +
        (if (decide ((a, b) = (u, v)) && countedPair uids (a, b)) = true then 1 else 0) := by
  unfold add_or_update_edge_in_graph
  by_cases hguard : a ≠ b ∧ a ∈ uids ∧ b ∈ uids
  · rw [if_pos hguard]
    have hcp : countedPair uids (a, b) = true := (countedPair_iff uids a b).mpr hguard
    rcases hfind : g.get_edge_data a b (generate_edge_key a b) with _ | e0
    · -- the edge is new: append it with weight 1
      unfold edgeWeightTotal
      simp only [MGraph.add_edge, List.filter_append, List.map_append, List.sum_append]
      by_cases hab : (a, b) = (u, v)
      · have hau : a = u := (Prod.mk.injEq a b u v).mp hab |>.1
        have hbv : b = v := (Prod.mk.injEq a b u v).mp hab |>.2
        rw [if_pos (by rw [hab] at hcp; simp [hab, hcp])]
        subst hau
        subst hbv
        simp
      · rw [if_neg (by simp [hab])]
        have : List.filter (fun e : Edge => decide (e.src = u ∧ e.dst = v))
            ([{ src := a, dst := b, key := generate_edge_key a b, weight := 1 }] :
              List Edge) = [] := by
          simp only [List.filter_eq_nil_iff]
          intro e he
          simp only [List.mem_singleton] at he
          subst he
          simp only [decide_eq_true_eq]
          rintro ⟨h1, h2⟩
          exact hab (by rw [h1, h2])
        rw [this]
        simp
    · -- the edge exists: bump exactly its weight
      have hpred := List.find?_some hfind
      have hmem := List.mem_of_find?_eq_some hfind
      simp only [decide_eq_true_eq] at hpred
      obtain ⟨hs0, hd0, hk0⟩ := hpred
      unfold edgeWeightTotal
      simp only []
      rw [List.filter_map]
      have hcong : ∀ e ∈ g.edges,
          ((fun e2 : Edge => decide (e2.src = u ∧ e2.dst = v)) ∘
            (fun e2 : Edge =>
              if e2.src = a ∧ e2.dst = b ∧ e2.key = generate_edge_key a b then
                { e2 with weight := e2.weight + 1 } else e2)) e =
          decide (e.src = u ∧ e.dst = v) := by
        intro e _
        by_cases hm : e.src = a ∧ e.dst = b ∧ e.key = generate_edge_key a b
        · simp only [Function.comp_apply, if_pos hm]
        · simp only [Function.comp_apply, if_neg hm]
      rw [List.filter_congr hcong]
      by_cases hab : (a, b) = (u, v)
      · have hau : a = u := ((Prod.mk.injEq a b u v).mp hab).1
        have hbv : b = v := ((Prod.mk.injEq a b u v).mp hab).2
        subst hau
        subst hbv
        rw [← hs0, ← hd0] at hcp hk0 ⊢
        rw [filter_pair_singleton g hu e0 hmem]
        rw [show (if (decide ((e0.src, e0.dst) = (e0.src, e0.dst)) &&
            countedPair uids (e0.src, e0.dst)) = true then (1 : ℚ) else 0) = 1 from by
          simp [hcp]]
        simp [hk0]
      · have hmapid : ∀ e ∈ g.edges.filter (fun e2 => decide (e2.src = u ∧ e2.dst = v)),
            (fun e2 : Edge =>
              if e2.src = a ∧ e2.dst = b ∧ e2.key = generate_edge_key a b then
                { e2 with weight := e2.weight + 1 } else e2) e = id e := by
          intro e he
          have hp := (List.mem_filter.mp he).2
          simp only [decide_eq_true_eq] at hp
          simp only [id_eq]
          rw [if_neg]
          rintro ⟨h1, h2, _⟩
          exact hab (by rw [← hp.1, ← hp.2, h1, h2])
        rw [List.map_congr_left hmapid, List.map_id]
        rw [if_neg (by simp [hab])]
        simp
  · rw [if_neg hguard]
    have hcp : countedPair uids (a, b) = false := by
      rw [Bool.eq_false_iff]
      intro hc
      exact hguard ((countedPair_iff uids a b).mp hc)
    rw [if_neg (by simp [hcp])]
    simp

theorem add_or_update_inv (g : MGraph) (a b : ℕ) (uids : List ℕ)
    (hu : PairUniq g) (hk : KeyCanon g) (hw : WPos g) :
    PairUniq (add_or_update_edge_in_graph g a b uids) ∧
    KeyCanon (add_or_update_edge_in_graph g a b uids) ∧
    WPos (add_or_update_edge_in_graph g a b uids) := by
  unfold add_or_update_edge_in_graph
  split_ifs with hguard
  · rcases hfind : g.get_edge_data a b (generate_edge_key a b) with _ | e0
    · refine ⟨?_, ?_, ?_⟩
      · unfold PairUniq
        simp only [MGraph.add_edge]
        rw [List.pairwise_append]
        refine ⟨hu, by simp, ?_⟩
        intro e1 he1 e2 he2
        simp only [List.mem_singleton] at he2
        subst he2
        rintro ⟨h1, h2⟩
        simp only [] at h1 h2
        have hnone := List.find?_eq_none.mp (by
          unfold MGraph.get_edge_data at hfind
          exact hfind) e1 he1
        apply hnone
        simp only [decide_eq_true_eq]
        exact ⟨h1, h2, by rw [hk e1 he1, h1, h2]⟩
      · intro e he
        simp only [MGraph.add_edge, List.mem_append, List.mem_singleton] at he
        rcases he with h | h
        · exact hk e h
        · subst h
          rfl
      · intro e he
        simp only [MGraph.add_edge, List.mem_append, List.mem_singleton] at he
        rcases he with h | h
        · exact hw e h
        · subst h
          exact le_refl 1
    · refine ⟨?_, ?_, ?_⟩
      · unfold PairUniq at hu ⊢
        simp only []
        refine List.Pairwise.map _ ?_ hu
        intro e1 e2 h12
        have hproj : ∀ e : Edge,
            ((if e.src = a ∧ e.dst = b ∧ e.key = generate_edge_key a b then
              { e with weight := e.weight + 1 } else e) : Edge).src = e.src ∧
            ((if e.src = a ∧ e.dst = b ∧ e.key = generate_edge_key a b then
              { e with weight := e.weight + 1 } else e) : Edge).dst = e.dst := by
          intro e
          by_cases hm : e.src = a ∧ e.dst = b ∧ e.key = generate_edge_key a b <;>
            simp [hm]
        rw [(hproj e1).1, (hproj e1).2, (hproj e2).1, (hproj e2).2]
        exact h12
      · intro e he
        simp only [List.mem_map] at he
        obtain ⟨e1, he1, heq⟩ := he
        by_cases hm : e1.src = a ∧ e1.dst = b ∧ e1.key = generate_edge_key a b
        · rw [if_pos hm] at heq
          rw [← heq]
          exact hk e1 he1
        · rw [if_neg hm] at heq
          rw [← heq]
          exact hk e1 he1
      · intro e he
        simp only [List.mem_map] at he
        obtain ⟨e1, he1, heq⟩ := he
        by_cases hm : e1.src = a ∧ e1.dst = b ∧ e1.key = generate_edge_key a b
        · rw [if_pos hm] at heq
          rw [← heq]
          have := hw e1 he1
          show (1 : ℚ) ≤ e1.weight + 1
          linarith
        · rw [if_neg hm] at heq
          rw [← heq]
          exact hw e1 he1
  · exact ⟨hu, hk, hw⟩

theorem foldl_pairs_spec (uids : List ℕ) (u v : ℕ) :
    ∀ (L : List (ℕ × ℕ)) (g : MGraph), PairUniq g → KeyCanon g → WPos g →
      (PairUniq (L.foldl (fun g2 p => add_or_update_edge_in_graph g2 p.1 p.2 uids) g) ∧
       KeyCanon (L.foldl (fun g2 p => add_or_update_edge_in_graph g2 p.1 p.2 uids) g) ∧
       WPos (L.foldl (fun g2 p => add_or_update_edge_in_graph g2 p.1 p.2 uids) g)) ∧
      edgeWeightTotal (L.foldl (fun g2 p => add_or_update_edge_in_graph g2 p.1 p.2 uids) g)
          u v =
        edgeWeightTotal g u v +
          (L.countP (fun p => decide (p = (u, v)) && countedPair uids p) : ℚ) := by
  intro L
  induction L with
  | nil =>
    intro g hu hk hw
    exact ⟨⟨hu, hk, hw⟩, by simp⟩
  | cons p L ih =>
    intro g hu hk hw
    obtain ⟨hadd1, hadd2, hadd3⟩ := add_or_update_inv g p.1 p.2 uids hu hk hw
    obtain ⟨hinv, hwt⟩ := ih (add_or_update_edge_in_graph g p.1 p.2 uids) hadd1 hadd2 hadd3
    refine ⟨hinv, ?_⟩
    rw [List.foldl_cons, hwt, add_or_update_weightTotal g p.1 p.2 uids hu u v,
      List.countP_cons]
    push_cast
    rw [show (p.1, p.2) = p from rfl]
    ring

theorem build_edges_inv (ut : UserTweets) (u v : ℕ) :
    (PairUniq (build_edges ut) ∧ KeyCanon (build_edges ut) ∧ WPos (build_edges ut)) ∧
    edgeWeightTotal (build_edges ut) u v = (interaction_count ut u v : ℚ) := by
  rw [build_edges_eq]
  obtain ⟨hinv, hwt⟩ := foldl_pairs_spec (userIdsOf ut) u v (all_interactions ut)
    MGraph.empty (by simp [PairUniq, MGraph.empty])
    (fun e he => absurd he (by simp [MGraph.empty]))
    (fun e he => absurd he (by simp [MGraph.empty]))
  refine ⟨hinv, ?_⟩
  rw [hwt, show edgeWeightTotal MGraph.empty u v = 0 from by
    simp [edgeWeightTotal, MGraph.empty], interaction_count]
  ring

theorem normalize_edges_shape (g : MGraph) (counts : List (ℕ × ℕ)) (minT : ℕ) :
    ∀ e ∈ (normalize_graph_edge_weights g counts minT).edges,
      ∃ e0 ∈ g.edges, e.src = e0.src ∧ e.dst = e0.dst ∧ e.key = e0.key ∧
        ∃ c, (counts.find? (fun p => p.1 = e0.src)).map (fun p => p.2) = some c ∧
          minT ≤ c ∧ e.weight = e0.weight / (c : ℚ) := by
  intro e he
  simp only [normalize_graph_edge_weights] at he
  obtain ⟨hmemN, _⟩ := List.mem_filter.mp he
  obtain ⟨e0, he0, hfm⟩ := List.mem_filterMap.mp hmemN
  rcases hfc : (counts.find? (fun p => p.1 = e0.src)).map (fun p => p.2) with _ | c <;>
    rw [hfc] at hfm
  · cases hfm
  · have hfm2 : (if minT ≤ c then
        some (Edge.mk e0.src e0.dst e0.key (e0.weight / (c : ℚ)))
        else (none : Option Edge)) = some e := hfm
    by_cases hmin : minT ≤ c
    · rw [if_pos hmin] at hfm2
      injection hfm2 with hfm2
      refine ⟨e0, he0, ?_, ?_, ?_, c, hfc, hmin, ?_⟩ <;> rw [← hfm2]
    · rw [if_neg hmin] at hfm2
      cases hfm2

theorem build_edges_no_self_loop (ut : UserTweets) :
    ∀ e ∈ (build_edges ut).edges, e.src ≠ e.dst := by
  rw [build_edges_eq]
  intro e he
  have hf : ∀ (g2 : MGraph) (p : ℕ × ℕ),
      ∀ e ∈ (add_or_update_edge_in_graph g2 p.1 p.2 (userIdsOf ut)).edges,
        e ∈ g2.edges ∨ e.src ≠ e.dst := by
    intro g2 p e2 he2
    rcases add_or_update_mem g2 p.1 p.2 (userIdsOf ut) e2 he2 with h | ⟨h1, h2, h3⟩
    · exact Or.inl h
    · refine Or.inr ?_
      rw [h1, h2]
      exact h3
  rcases foldl_graph_mem _ _ hf _ _ e he with h | h
  · exact absurd h (by simp [MGraph.empty])
  · exact h

/-! ## Claim C7 -/

/-- C7: Every edge surviving `make_graph` has its weight equal to the
accumulated interaction count divided by the source node's total tweet
count (which is at least `min_number_tweets`); and every node whose tweet
count is below the threshold is removed as a source — no surviving edge
has it as source, and if it sourced any accumulated edge it is removed
from the graph entirely, together with its incident edges. -/
theorem graph_builder_normalization_pruning (ut : UserTweets) (minT : ℕ) :
    (∀ e ∈ (make_graph ut minT).edges,
      ∃ c, ((numTweetsOf ut).find? (fun p => p.1 = e.src)).map (fun p => p.2) = some c ∧
        minT ≤ c ∧
        ∃ e0 ∈ (build_edges ut).edges, e0.src = e.src ∧ e0.dst = e.dst ∧
          e0.key = e.key ∧ e.weight = e0.weight / (c : ℚ)) ∧
    (∀ u, sourceKept (numTweetsOf ut) minT u = false →
      (∀ e ∈ (make_graph ut minT).edges, e.src ≠ u) ∧
      ((∃ e0 ∈ (build_edges ut).edges, e0.src = u) →
        u ∉ (make_graph ut minT).nodes ∧
        ∀ e ∈ (make_graph ut minT).edges, e.dst ≠ u)) := by
  constructor
  · intro e he
    obtain ⟨e0, he0, h1, h2, h3, c, hc, hmin, hwt⟩ :=
      normalize_edges_shape (build_edges ut) (numTweetsOf ut) minT e he
    rw [← h1] at hc
    exact ⟨c, hc, hmin, e0, he0, h1.symm, h2.symm, h3.symm, by rw [hwt]⟩
  · intro u hsk
    have hkept : ∀ e ∈ (make_graph ut minT).edges,
        sourceKept (numTweetsOf ut) minT e.src = true := by
      intro e he
      obtain ⟨e0, _, h1, _, _, c, hc, hmin, _⟩ :=
        normalize_edges_shape (build_edges ut) (numTweetsOf ut) minT e he
      unfold sourceKept
      rw [← h1] at hc
      rw [hc]
      simpa using hmin
    constructor
    · intro e he heq
      have := hkept e he
      rw [heq, hsk] at this
      cases this
    · rintro ⟨e0, he0, hsrc⟩
      have hntr : u ∈ (((build_edges ut).edges.filter
          (fun e => ¬ sourceKept (numTweetsOf ut) minT e.src)).map (fun e => e.src)) := by
        refine List.mem_map.mpr ⟨e0, ?_, hsrc⟩
        refine List.mem_filter.mpr ⟨he0, ?_⟩
        rw [hsrc, hsk]
        simp
      constructor
      · intro hmem
        simp only [make_graph, normalize_graph_edge_weights] at hmem
        have := (List.mem_filter.mp hmem).2
        simp only [decide_eq_true_eq] at this
        exact this hntr
      · intro e he heq
        simp only [make_graph, normalize_graph_edge_weights] at he
        have := (List.mem_filter.mp he).2
        simp only [decide_eq_true_eq] at this
        exact this.2 (heq ▸ hntr)

/-! ## Claim C8 -/

/-- C8: The builder never creates a self-loop: an edge is added or
incremented only for distinct in-network endpoints, so every edge of the
accumulated graph and of the final normalized graph has distinct
endpoints. -/
theorem graph_builder_no_self_loops (ut : UserTweets) (minT : ℕ) :
    (∀ e ∈ (build_edges ut).edges, e.src ≠ e.dst) ∧
    (∀ e ∈ (make_graph ut minT).edges, e.src ≠ e.dst) := by
  refine ⟨build_edges_no_self_loop ut, ?_⟩
  intro e he
  obtain ⟨e0, he0, h1, h2, _, _⟩ :=
    normalize_edges_shape (build_edges ut) (numTweetsOf ut) minT e he
  rw [h1, h2]
  exact build_edges_no_self_loop ut e0 he0

/-! ## Claim C6 -/

/-- C6: The builder applies the "who influenced me" direction: processing
a tweet of user `curr` only adds or increments edges whose destination is
`curr` (source some other user), never an edge leaving `curr`; edges with
source `curr` are untouched; every interaction pair a tweet submits points
to `curr`; and the per-pair weight totals grow exactly by the number of
counted interactions of that tweet toward `curr`. -/
theorem graph_builder_edge_direction (curr : ℕ) (uids : List ℕ) (t : Tweet) (g : MGraph)
    (hu : PairUniq g) (hk : KeyCanon g) (hw : WPos g) :
    (∀ e ∈ (process_potential_edges curr uids t g).edges,
      e ∈ g.edges ∨ (e.dst = curr ∧ e.src ≠ curr)) ∧
    (∀ e : Edge, e.src = curr →
      (e ∈ (process_potential_edges curr uids t g).edges ↔ e ∈ g.edges)) ∧
    (∀ p ∈ tweet_interactions curr t, p.2 = curr) ∧
    (∀ u v, edgeWeightTotal (process_potential_edges curr uids t g) u v =
      edgeWeightTotal g u v +
        ((tweet_interactions curr t).countP
          (fun p => decide (p = (u, v)) && countedPair uids p) : ℚ)) := by
  refine ⟨process_potential_edges_mem curr uids t g,
    fun e h => process_potential_edges_mem_iff curr uids t g e h, ?_, ?_⟩
  · intro p hp
    obtain ⟨b, _, hb⟩ := List.mem_map.mp hp
    rw [← hb]
  · intro u v
    rw [process_as_interactions]
    exact (foldl_pairs_spec uids u v (tweet_interactions curr t) g hu hk hw).2

/-- Witness for C6: processing the reply tweet of user 0 on the empty
graph. -/
theorem graph_builder_edge_direction_witness :
    (∀ e ∈ (process_potential_edges 0 [0, 1] tweetReply1 MGraph.empty).edges,
      e ∈ MGraph.empty.edges ∨ (e.dst = 0 ∧ e.src ≠ 0)) ∧
    (∀ e : Edge, e.src = 0 →
      (e ∈ (process_potential_edges 0 [0, 1] tweetReply1 MGraph.empty).edges ↔
        e ∈ MGraph.empty.edges)) ∧
    (∀ p ∈ tweet_interactions 0 tweetReply1, p.2 = 0) ∧
    (∀ u v, edgeWeightTotal (process_potential_edges 0 [0, 1] tweetReply1 MGraph.empty)
        u v =
      edgeWeightTotal MGraph.empty u v +
        ((tweet_interactions 0 tweetReply1).countP
          (fun p => decide (p = (u, v)) && countedPair [0, 1] p) : ℚ)) :=
  graph_builder_edge_direction 0 [0, 1] tweetReply1 MGraph.empty
    (List.Pairwise.nil) (fun e he => absurd he (List.not_mem_nil e))
    (fun e he => absurd he (List.not_mem_nil e))

/-! ## Claim C9 -/

/-- C9: A user id appearing in a tweet's mentions adds no edge weight when
that id also appears among the tweet's successfully parsed replied-to ids,
or among its retweeted or quoted author ids when both of those fields
parse (they share one `try` block): processing the tweet is unchanged when
such a mention is deleted from the mention list.  In particular this
covers the mixed case where the reply field parses and contains the id
while the retweet/quote fields fail to parse. -/
theorem graph_builder_mention_dedup (curr : ℕ) (uids : List ℕ) (g : MGraph) (t : Tweet)
    (m : ℕ)
    (hm : (∃ rs, t.replied_to_author_ids = some rs ∧ m ∈ rs) ∨
          (∃ rts qts, t.retweeted_author_ids = some rts ∧
            t.quoted_author_ids = some qts ∧ (m ∈ rts ∨ m ∈ qts))) :
    process_potential_edges curr uids t g =
      process_potential_edges curr uids
        { t with mentioned_user_ids := t.mentioned_user_ids.filter (fun b => b ≠ m) } g := by
  have hmD : m ∈ replied_retweeted_quoted_ids t := by
    unfold replied_retweeted_quoted_ids
    rcases hm with ⟨rs, hr, hmem⟩ | ⟨rts, qts, hrt, hq, hmem⟩
    · rw [hr]
      exact List.mem_append.mpr (Or.inl hmem)
    · rw [hrt, hq]
      exact List.mem_append.mpr (Or.inr (List.mem_append.mpr hmem))
  rw [process_potential_edges_eq, process_potential_edges_eq]
  have hsame : replied_retweeted_quoted_ids
      { t with mentioned_user_ids := t.mentioned_user_ids.filter (fun b => b ≠ m) } =
      replied_retweeted_quoted_ids t := rfl
  rw [hsame]
  have hfields : ({ t with mentioned_user_ids :=
      t.mentioned_user_ids.filter (fun b => b ≠ m) } : Tweet).replied_to_author_ids =
      t.replied_to_author_ids := rfl
  rw [hfields]
  have hfields2 : ({ t with mentioned_user_ids :=
      t.mentioned_user_ids.filter (fun b => b ≠ m) } : Tweet).retweeted_author_ids =
      t.retweeted_author_ids := rfl
  have hfields3 : ({ t with mentioned_user_ids :=
      t.mentioned_user_ids.filter (fun b => b ≠ m) } : Tweet).quoted_author_ids =
      t.quoted_author_ids := rfl
  rw [hfields2, hfields3]
  have hfields4 : ({ t with mentioned_user_ids :=
      t.mentioned_user_ids.filter (fun b => b ≠ m) } : Tweet).mentioned_user_ids =
      t.mentioned_user_ids.filter (fun b => b ≠ m) := rfl
  rw [hfields4]
  congr 1
  rw [List.filter_filter]
  apply List.filter_congr
  intro b _
  by_cases hb : b ∈ replied_retweeted_quoted_ids t
  · simp [hb]
  · have hbm : b ≠ m := fun h => hb (h ▸ hmD)
    simp [hb, hbm]

/-- Witness for C9 at the mixed case: the tweet replies to user 1 while
its retweet and quote fields fail to parse, and mentions users 1 and 2 —
dropping the mention of 1 does not change the produced graph. -/
theorem graph_builder_mention_dedup_witness :
    process_potential_edges 0 [0, 1, 2] tweetReplyBadParse MGraph.empty =
      process_potential_edges 0 [0, 1, 2]
        { tweetReplyBadParse with mentioned_user_ids :=
            tweetReplyBadParse.mentioned_user_ids.filter (fun b => b ≠ 1) }
        MGraph.empty :=
  graph_builder_mention_dedup 0 [0, 1, 2] MGraph.empty tweetReplyBadParse 1
    (Or.inl ⟨[1], rfl, by decide⟩)

/-! ## Claim C10 -/

/-- C10: Although the builder's graph is a multigraph, the deterministic
key `"u->v"` gives at most one edge per ordered pair; every accumulated
edge carries that key, and its weight is the (positive, integral) number
of counted interactions for its directed pair. -/
theorem graph_builder_edge_multiplicity (ut : UserTweets) (u v : ℕ) :
    ((build_edges ut).edges.filter (fun e => decide (e.src = u ∧ e.dst = v))).length ≤ 1 ∧
    (∀ e ∈ (build_edges ut).edges, e.key = generate_edge_key e.src e.dst) ∧
    (∀ e ∈ (build_edges ut).edges, e.src = u → e.dst = v →
      e.weight = (interaction_count ut u v : ℚ) ∧ 0 < interaction_count ut u v) := by
  obtain ⟨⟨hu, hk, hw⟩, hwt⟩ := build_edges_inv ut u v
  refine ⟨filter_pair_length_le_one _ hu u v, hk, ?_⟩
  intro e he hsu hsv
  have h1 : edgeWeightTotal (build_edges ut) u v = e.weight := by
    rw [← hsu, ← hsv]
    exact edgeWeightTotal_eq_weight _ hu e he
  have h2 : e.weight = (interaction_count ut u v : ℚ) := by
    rw [← h1, hwt]
  refine ⟨h2, ?_⟩
  have h3 := hw e he
  rw [h2] at h3
  exact_mod_cast lt_of_lt_of_le one_pos h3

/-- Witness for C7: in the tiny directory with threshold 2, user 1 (one
tweet) is an under-active source of the accumulated edge `1->0`, so node 1
is removed from the normalized graph together with its incident edges. -/
theorem graph_builder_normalization_pruning_witness :
    1 ∉ (make_graph exampleUserTweets 2).nodes ∧
    ∀ e ∈ (make_graph exampleUserTweets 2).edges, e.dst ≠ 1 :=
  ((graph_builder_normalization_pruning exampleUserTweets 2).2 1 (by decide)).2
    ⟨Edge.mk 1 0 "1->0" 1, by decide, rfl⟩

/-- Witness for C8: the accumulated edge `1->0` of the tiny directory has
distinct endpoints. -/
theorem graph_builder_no_self_loops_witness :
    (Edge.mk 1 0 "1->0" 1).src ≠ (Edge.mk 1 0 "1->0" 1).dst :=
  (graph_builder_no_self_loops exampleUserTweets 1).1 (Edge.mk 1 0 "1->0" 1) (by decide)

/-- Witness for C10: the accumulated edge `1->0` of the tiny directory
carries exactly the (positive) count of counted `(1, 0)` interactions. -/
theorem graph_builder_edge_multiplicity_witness :
    (Edge.mk 1 0 "1->0" 1).weight = (interaction_count exampleUserTweets 1 0 : ℚ) ∧
    0 < interaction_count exampleUserTweets 1 0 :=
  (graph_builder_edge_multiplicity exampleUserTweets 1 0).2.2
    (Edge.mk 1 0 "1->0" 1) (by decide) rfl rfl

end CongressTwitter
